import Mathlib

/-!
Verification of the AI Meeting Prep application (src/AI_Meeting_Prep/app.py).

The development shallowly embeds the three pieces of the program the claims
are about:

* the output parser `parse_final_output`, built on Python regular-expression
  semantics for the pattern
  `#\s*(SUMMARY|KEY DISCUSSION POINTS|ACTION ITEMS|SUGGESTED QUESTIONS|RISKS AND MISSING INFO|MEETING SCRIPT)\s*(.*?)(?=\n#|$)`
  used with `re.findall` and `re.DOTALL`;
* the orchestrator `run_meeting_prep_crew`, with the environment and the
  external generation capability passed in as explicit functions;
* the document-corpus construction performed by the module-level upload loop,
  together with `extract_pdf_text`.

Machine-level collaborators (the Streamlit UI, PyPDF2 page extraction, the
actual LLM) are parameters of the embedding, never stubs of program logic.
-/

/-- The ASCII whitespace characters recognised by Python regular-expression
class `\s` and by `str.strip()` with no argument (all inputs in this
development are ASCII, so the additional Unicode whitespace characters of
Python never arise). Characters 11 and 12 are vertical tab and form feed. -/
def pySpace (c : Char) : Bool :=
  c == ' ' || c == '\t' || c == '\n' || c == '\r' || c == Char.ofNat 11 || c == Char.ofNat 12

/-- Python `str.strip()`: remove leading and trailing whitespace. -/
def pyStrip (l : List Char) : List Char :=
  ((l.dropWhile pySpace).reverse.dropWhile pySpace).reverse

/-- Python truthiness of `os.environ.get(...)` and of `page.extract_text()`:
`None` and the empty string are falsy, every other string is truthy. -/
def pyTruthyOpt : Option String → Bool
  | none => false
  | some s => !(s == "")

/-- Python slicing `s[:n]` on a string: the first `n` characters. -/
def pySliceUpTo (s : String) (n : Nat) : String :=
  String.mk (s.data.take n)

/-- The six canonical header names, in the order they appear in the
alternation of the regular expression in `parse_final_output` (which is also
the canonical order of the template of task `t6`). -/
def sectionNames : List String :=
  ["SUMMARY", "KEY DISCUSSION POINTS", "ACTION ITEMS",
   "SUGGESTED QUESTIONS", "RISKS AND MISSING INFO", "MEETING SCRIPT"]

/-- Try the header alternatives in order; on the first alternative that is a
literal prefix of `l`, return it together with the rest of `l`.  This is the
regex alternation `(SUMMARY|...|MEETING SCRIPT)` tried at a fixed position.
Backtracking never selects a later alternative here because no header is a
prefix of another. -/
def matchHeaderIn : List String → List Char → Option (String × List Char)
  | [], _ => none
  | h :: hs, l =>
      if h.data.isPrefixOf l then some (h, l.drop h.data.length)
      else matchHeaderIn hs l

/-- The header alternation of the pattern of `parse_final_output`. -/
def matchHeader (l : List Char) : Option (String × List Char) :=
  matchHeaderIn sectionNames l

/-- The lazy group `(.*?)(?=\n#|$)` of the pattern, with `re.DOTALL` in
force: take characters until the first position at which the lookahead
succeeds, i.e. until a newline immediately followed by the marker character,
or the end of the input, or the position just before a final newline (the
Python `$` without `re.MULTILINE` also matches there).  Returns the body and
the remaining input at the stop position (the lookahead consumes nothing). -/
def takeBody : List Char → List Char × List Char
  | [] => ([], [])
  | c :: rest =>
      if c = '\n' ∧ (rest.head? = some '#' ∨ rest = []) then ([], c :: rest)
      else ((c :: (takeBody rest).1), (takeBody rest).2)

/-- One left-to-right scan of `re.findall` for the section pattern, with
explicit fuel (one unit per character examined; each step consumes at least
one character, so fuel equal to the length of the input suffices).  At a
marker character, the greedy `\s*` takes the maximal whitespace run (no
shorter run can be chosen by backtracking, since every header starts with a
letter), then the alternation is tried; on success the body extends as in
`takeBody` and scanning resumes at the match end, on failure scanning
restarts one character further right. -/
def findAux : Nat → List Char → List (String × List Char)
  | 0, _ => []
  | _ + 1, [] => []
  | fuel + 1, c :: rest =>
      if c = '#' then
        Option.elim (matchHeader (rest.dropWhile pySpace)) (findAux fuel rest)
          (fun pr =>
            (pr.1, (takeBody (pr.2.dropWhile pySpace)).1) ::
              findAux fuel (takeBody (pr.2.dropWhile pySpace)).2)
      else findAux fuel rest

/-- The full scan `re.findall(pattern, l, re.DOTALL)` for the section pattern: every
match yields the pair (header, raw body). -/
def findMatches (l : List Char) : List (String × List Char) :=
  findAux l.length l

/-- The fixed-key dictionary literal `sections` of `parse_final_output`. -/
def initSections : List (String × String) :=
  [("SUMMARY", ""), ("KEY DISCUSSION POINTS", ""), ("ACTION ITEMS", ""),
   ("SUGGESTED QUESTIONS", ""), ("RISKS AND MISSING INFO", ""), ("MEETING SCRIPT", "")]

/-- Python dictionary assignment `d[k] = v`: replace the value at an existing
key in place, append the binding otherwise. -/
def dictSet : List (String × String) → String → String → List (String × String)
  | [], k, v => [(k, v)]
  | (k', v') :: rest, k, v =>
      if k' = k then (k', v) :: rest else (k', v') :: dictSet rest k v

/-- The loop `for header, content in matches: sections[header] = content.strip()`. -/
def applyMatches (d : List (String × String)) (ms : List (String × String)) :
    List (String × String) :=
  ms.foldl (fun acc p => dictSet acc p.1 p.2) d

/-- The matches of the scan with their bodies already stripped, in scan
order. -/
def trimmedMatches (output : String) : List (String × String) :=
  (findMatches output.data).map (fun p => (p.1, String.mk (pyStrip p.2)))

/-- The function `parse_final_output` from src/AI_Meeting_Prep/app.py: start from the
six-key dictionary, scan the raw output, and assign each match into the
dictionary, later matches overwriting earlier ones. -/
def parse_final_output (output : String) : List (String × String) :=
  applyMatches initSections (trimmedMatches output)

/-- The stripped bodies of the matches whose header is `h`, in scan order. -/
def matchesFor (s : String) (h : String) : List (String × String) :=
  (trimmedMatches s).filter (fun p => p.1 == h)

/-- The value of the last pair of an association list, if any. -/
def lastVal {α β : Type} : List (α × β) → Option β
  | [] => none
  | [p] => some p.2
  | _ :: q :: rest => lastVal (q :: rest)

/-- One pipeline step as handed to the generation capability: the agent role
together with the task description and expected output of the `Task` the
agent is bound to. -/
structure CrewTask where
  role : String
  description : String
  expected_output : String
deriving DecidableEq

/-- The six tasks `t1`–`t6` of `run_meeting_prep_crew`, in the order they are
given to the `Crew` (its process is sequential).  The text embedded in `t1`
is the combined text after the `full_text[:100000]` safety limit. -/
def crewTasks (full_text : String) : List CrewTask :=
  [⟨"Document Summarizer", "Summarize:\n" ++ pySliceUpTo full_text 100000,
    "2–3 paragraphs."⟩,
   ⟨"Discussion Point Extractor", "List 3–5 strategic discussion points.",
    "Bulleted list."⟩,
   ⟨"Action Item Extractor", "Extract ALL action items.", "Action list."⟩,
   ⟨"Question Generator", "Generate exactly 5 questions.", "List of 5 questions."⟩,
   ⟨"Risk Analyst", "Identify risks and missing information.", "Paragraph."⟩,
   ⟨"Report Compiler",
    "\nUse all previous results and produce the final structured output:\n\n# SUMMARY\n<summary>\n\n# KEY DISCUSSION POINTS\n<points>\n\n# ACTION ITEMS\n<items>\n\n# SUGGESTED QUESTIONS\n<questions>\n\n# RISKS AND MISSING INFO\n<risks>\n\n# MEETING SCRIPT\n<script>\n        ",
    "Formatted final output"⟩]

/-- The call `crew.kickoff()` with a sequential process: invoke the generation
capability once per task, strictly in order, the result of the last task
being the result of the run.  An exception raised by the capability
propagates unchanged (there is no try/except around `kickoff` in the
source), modelled by `Except.error`. -/
def kickoffSeq (gen : CrewTask → Except String String) :
    List CrewTask → String → Except String String
  | [], acc => Except.ok acc
  | t :: ts, _ =>
      match gen t with
      | Except.error e => Except.error e
      | Except.ok out => kickoffSeq gen ts out

/-- The roles whose tasks actually reach the generation capability during a
sequential kickoff: every task up to and including the first failing one. -/
def invokedTasks (gen : CrewTask → Except String String) :
    List CrewTask → List String
  | [] => []
  | t :: ts =>
      t.role ::
        (match gen t with
         | Except.error _ => []
         | Except.ok _ => invokedTasks gen ts)

/-- The sentinel returned by `run_meeting_prep_crew` when the credential is
missing; the specification calls this outcome a `ConfigurationError`. -/
def configErrorMessage : String := "ERROR: GEMINI_API_KEY missing in environment."

/-- The function `run_meeting_prep_crew` from src/AI_Meeting_Prep/app.py, with the
environment (`os.environ.get`) and the generation capability passed
explicitly.  The first component is the returned value (`Except.error` is an
exception propagating out of the call, `Except.ok` a normal return — the
configuration failure is a normal return of the sentinel string); the second
component records which steps invoked the generation capability.  The
`hasattr` chain at the end of the source merely extracts the textual payload
of the crew result and is the identity in this embedding. -/
def run_meeting_prep_crew (getenv : String → Option String)
    (gen : CrewTask → Except String String) (full_text : String) :
    Except String String × List String :=
  if pyTruthyOpt (getenv "GEMINI_API_KEY") = false then
    (Except.ok configErrorMessage, [])
  else
    (kickoffSeq gen (crewTasks full_text) "",
     invokedTasks gen (crewTasks full_text))

/-- The function `extract_pdf_text` from src/AI_Meeting_Prep/app.py: concatenate the
per-page extracted texts, skipping falsy (absent or empty) pages, with one
newline after each contributing page. -/
def extract_pdf_text (pages : List (Option String)) : String :=
  pages.foldl
    (fun text t => if pyTruthyOpt t = true then text ++ t.getD "" ++ "\n" else text) ""

/-- An uploaded file as the module-level upload loop distinguishes them: a
PDF (given by its pages as PyPDF2 extracts them) or a plain-text file (given
by its UTF-8-decoded content). -/
inductive UploadedFile where
  | pdf (pages : List (Option String))
  | txt (content : String)

/-- The text contributed by one uploaded file. -/
def fileText : UploadedFile → String
  | UploadedFile.pdf pages => extract_pdf_text pages
  | UploadedFile.txt c => c

/-- The module-level upload loop building `full_text`: per-file text in
upload order, one newline appended per file. -/
def buildCorpus (files : List UploadedFile) : String :=
  files.foldl (fun full_text f => full_text ++ fileText f ++ "\n") ""

/-- The block `# HEADER\nBODY\n` of the round-trip law. -/
def renderBlock (h b : String) : String := "# " ++ h ++ "\n" ++ b ++ "\n"

/-- A report written as one block per (header, body) pair, in order. -/
def renderReport : List (String × String) → String
  | [] => ""
  | p :: rest => renderBlock p.1 p.2 ++ renderReport rest

/-- Holds when the first character exists and is not whitespace. -/
def headNotSpace : List Char → Bool
  | [] => false
  | c :: _ => !pySpace c

/-- Holds when the text nowhere contains a newline immediately followed by
the marker character, i.e. when no line after the first starts with `#`. -/
def noNlHash : List Char → Bool
  | [] => true
  | c :: rest => if c = '\n' ∧ rest.head? = some '#' then false else noNlHash rest

/-- A body that survives the round trip: nonempty, equal to its own strip
(first and last characters not whitespace), and with no line after the first
starting with the marker character. -/
def goodBody (b : List Char) : Bool :=
  headNotSpace b && headNotSpace b.reverse && noNlHash b

/-- The lines of a text, splitting on newline. -/
def linesOf : List Char → List (List Char)
  | [] => [[]]
  | c :: rest =>
      if c = '\n' then [] :: linesOf rest
      else
        match linesOf rest with
        | [] => [[c]]
        | l :: ls => (c :: l) :: ls

/-- Whether some line starts with the marker character followed (after
optional whitespace) by a canonical header name — the situation the
round-trip law of the specification excludes from bodies. -/
def hasMarkedHeaderLine (b : String) : Bool :=
  (linesOf b.data).any (fun ln =>
    ln.head? == some '#' &&
      sectionNames.any (fun h => h.data.isPrefixOf ((ln.drop 1).dropWhile pySpace)))

/-- Whether some line starts with the marker character at all. -/
def hasHashLine (b : String) : Bool :=
  (linesOf b.data).any (fun ln => ln.head? == some '#')

/-- The number of positions at which `pat` occurs as a substring of `l`. -/
def countSubstr : List Char → List Char → Nat
  | [], _ => 0
  | c :: rest, pat =>
      (if pat.isPrefixOf (c :: rest) then 1 else 0) + countSubstr rest pat

/-- A concrete environment holding the credential. -/
def envWithKey : String → Option String :=
  fun k => if k = "GEMINI_API_KEY" then some "key" else none

/-- A concrete generation capability that always fails, with a cause naming
no pipeline step. -/
def genFailQuota : CrewTask → Except String String :=
  fun _ => Except.error "quota exceeded"

/-! ### Basic facts about the scanning primitives -/

theorem dropWhile_length_le (p : Char → Bool) (l : List Char) :
    (l.dropWhile p).length ≤ l.length := by
  induction l with
  | nil => simp
  | cons c rest ih =>
      rw [List.dropWhile_cons]
      split
      · exact Nat.le_trans ih (Nat.le_succ _)
      · exact Nat.le_refl _

theorem takeBody_snd_length (l : List Char) : (takeBody l).2.length ≤ l.length := by
  induction l with
  | nil => simp [takeBody]
  | cons c rest ih =>
      rw [takeBody]
      split
      · exact Nat.le_refl _
      · exact Nat.le_trans ih (Nat.le_succ _)

theorem exists_append_of_isPrefixOf {l₁ l₂ : List Char}
    (h : l₁.isPrefixOf l₂ = true) : ∃ t, l₂ = l₁ ++ t := by
  induction l₁ generalizing l₂ with
  | nil => exact ⟨l₂, rfl⟩
  | cons a as ih =>
      cases l₂ with
      | nil => simp [List.isPrefixOf] at h
      | cons b bs =>
          simp only [List.isPrefixOf, Bool.and_eq_true, beq_iff_eq] at h
          obtain ⟨rfl, h2⟩ := h
          obtain ⟨t, rfl⟩ := ih h2
          exact ⟨t, rfl⟩

theorem matchHeaderIn_inv : ∀ (names : List String) (l : List Char)
    (h : String) (r : List Char), matchHeaderIn names l = some (h, r) →
    h ∈ names ∧ h.data.isPrefixOf l = true ∧ r = l.drop h.data.length := by
  intro names
  induction names with
  | nil => intro l h r hm; simp [matchHeaderIn] at hm
  | cons n ns ih =>
      intro l h r hm
      rw [matchHeaderIn] at hm
      split at hm
      · rename_i hpre
        simp only [Option.some.injEq, Prod.mk.injEq] at hm
        obtain ⟨rfl, rfl⟩ := hm
        exact ⟨List.mem_cons_self _ _, hpre, rfl⟩
      · obtain ⟨h1, h2, h3⟩ := ih l h r hm
        exact ⟨List.mem_cons_of_mem _ h1, h2, h3⟩

theorem matchHeader_inv {l : List Char} {h : String} {r : List Char}
    (hm : matchHeader l = some (h, r)) :
    h ∈ sectionNames ∧ h.data.isPrefixOf l = true ∧ r = l.drop h.data.length :=
  matchHeaderIn_inv sectionNames l h r hm

theorem matchHeader_length {l : List Char} {h : String} {r : List Char}
    (hm : matchHeader l = some (h, r)) : r.length ≤ l.length := by
  obtain ⟨-, -, rfl⟩ := matchHeader_inv hm
  rw [List.length_drop]
  exact Nat.sub_le _ _

/-- The scan does not depend on the fuel, as long as the fuel covers the
length of the input. -/
theorem findAux_congr : ∀ (f₁ : Nat) (f₂ : Nat) (l : List Char),
    l.length ≤ f₁ → l.length ≤ f₂ → findAux f₁ l = findAux f₂ l := by
  intro f₁
  induction f₁ with
  | zero =>
      intro f₂ l h1 _
      have : l = [] := List.length_eq_zero.mp (Nat.le_zero.mp h1)
      subst this
      cases f₂ <;> rfl
  | succ f ih =>
      intro f₂ l h1 h2
      cases l with
      | nil => cases f₂ <;> rfl
      | cons c rest =>
          cases f₂ with
          | zero => exact absurd h2 (by simp)
          | succ g =>
              have hrest₁ : rest.length ≤ f := Nat.lt_succ_iff.mp h1
              have hrest₂ : rest.length ≤ g := Nat.lt_succ_iff.mp h2
              rw [findAux, findAux]
              split
              · cases hmh : matchHeader (rest.dropWhile pySpace) with
                | none => simpa using ih g rest hrest₁ hrest₂
                | some pr =>
                    obtain ⟨h, afterH⟩ := pr
                    have hlen : (takeBody (afterH.dropWhile pySpace)).2.length ≤ rest.length := by
                      calc (takeBody (afterH.dropWhile pySpace)).2.length
                          ≤ (afterH.dropWhile pySpace).length := takeBody_snd_length _
                        _ ≤ afterH.length := dropWhile_length_le _ _
                        _ ≤ (rest.dropWhile pySpace).length := matchHeader_length hmh
                        _ ≤ rest.length := dropWhile_length_le _ _
                    simp only [Option.elim_some]
                    rw [ih g _ (Nat.le_trans hlen hrest₁) (Nat.le_trans hlen hrest₂)]
              · exact ih g rest hrest₁ hrest₂

theorem findMatches_nil : findMatches [] = [] := rfl

theorem findMatches_cons_ne {c : Char} (l : List Char) (hc : ¬ c = '#') :
    findMatches (c :: l) = findMatches l := by
  rw [findMatches, List.length_cons, findAux, if_neg hc]
  exact findAux_congr l.length l.length l (Nat.le_refl _) (Nat.le_refl _)

theorem findMatches_hash_some {rest : List Char} {h : String} {afterH : List Char}
    (hm : matchHeader (rest.dropWhile pySpace) = some (h, afterH)) :
    findMatches ('#' :: rest) =
      (h, (takeBody (afterH.dropWhile pySpace)).1) ::
        findMatches (takeBody (afterH.dropWhile pySpace)).2 := by
  rw [findMatches, List.length_cons, findAux, if_pos rfl, hm, Option.elim_some]
  have hlen : (takeBody (afterH.dropWhile pySpace)).2.length ≤ rest.length := by
    calc (takeBody (afterH.dropWhile pySpace)).2.length
        ≤ (afterH.dropWhile pySpace).length := takeBody_snd_length _
      _ ≤ afterH.length := dropWhile_length_le _ _
      _ ≤ (rest.dropWhile pySpace).length := matchHeader_length hm
      _ ≤ rest.length := dropWhile_length_le _ _
  rw [findAux_congr rest.length (takeBody (afterH.dropWhile pySpace)).2.length _ hlen
    (Nat.le_refl _)]
  rfl

theorem findMatches_hash_none {rest : List Char}
    (hm : matchHeader (rest.dropWhile pySpace) = none) :
    findMatches ('#' :: rest) = findMatches rest := by
  rw [findMatches, List.length_cons, findAux, if_pos rfl, hm, Option.elim_none]
  exact findAux_congr rest.length rest.length rest (Nat.le_refl _) (Nat.le_refl _)

/-! ### Properties of bodies and trimming -/

theorem noNlHash_cons {c : Char} {rest : List Char}
    (h : noNlHash (c :: rest) = true) :
    ¬(c = '\n' ∧ rest.head? = some '#') ∧ noNlHash rest = true := by
  rw [noNlHash] at h
  split at h
  · cases h
  · rename_i hc
    exact ⟨hc, h⟩

theorem noNlHash_append_left {a b : List Char}
    (h : noNlHash (a ++ b) = true) : noNlHash a = true := by
  induction a with
  | nil => rfl
  | cons c cs ih =>
      obtain ⟨hc, htail⟩ := @noNlHash_cons c (cs ++ b) (by simpa using h)
      rw [noNlHash, if_neg ?cnd]
      · exact ih htail
      case cnd =>
        rintro ⟨rfl, hh⟩
        cases cs with
        | nil => cases hh
        | cons d ds => exact hc ⟨rfl, by simpa using hh⟩

theorem noNlHash_dropWhile {l : List Char} (p : Char → Bool)
    (h : noNlHash l = true) : noNlHash (l.dropWhile p) = true := by
  induction l with
  | nil => exact h
  | cons c cs ih =>
      rw [List.dropWhile_cons]
      split
      · exact ih (noNlHash_cons h).2
      · exact h

theorem exists_dropWhile_eq_append (p : Char → Bool) :
    ∀ l : List Char, ∃ a, a ++ l.dropWhile p = l := by
  intro l
  induction l with
  | nil => exact ⟨[], rfl⟩
  | cons c cs ih =>
      rw [List.dropWhile_cons]
      split
      · obtain ⟨a, ha⟩ := ih
        exact ⟨c :: a, by simpa using ha⟩
      · exact ⟨[], rfl⟩

theorem noNlHash_pyStrip {l : List Char} (h : noNlHash l = true) :
    noNlHash (pyStrip l) = true := by
  rw [pyStrip]
  have h1 : noNlHash (l.dropWhile pySpace) = true := noNlHash_dropWhile _ h
  obtain ⟨a, ha⟩ := exists_dropWhile_eq_append pySpace (l.dropWhile pySpace).reverse
  have hdecomp : l.dropWhile pySpace =
      ((l.dropWhile pySpace).reverse.dropWhile pySpace).reverse ++ a.reverse := by
    have := congrArg List.reverse ha
    simpa using this.symm
  exact noNlHash_append_left (by rw [← hdecomp]; exact h1)

theorem dropWhile_append_headNotSpace {b : List Char} (z : List Char)
    (h : headNotSpace b = true) :
    (b ++ z).dropWhile pySpace = b ++ z := by
  cases b with
  | nil => cases h
  | cons c cs =>
      rw [headNotSpace] at h
      rw [List.cons_append, List.dropWhile_cons, if_neg (by simpa using h)]

theorem takeBody_append_hash {b : List Char} (w : List Char)
    (h : noNlHash b = true) :
    takeBody (b ++ '\n' :: '#' :: w) = (b, '\n' :: '#' :: w) := by
  induction b with
  | nil =>
      rw [List.nil_append, takeBody, if_pos (by simp)]
  | cons c cs ih =>
      obtain ⟨hc, htail⟩ := noNlHash_cons h
      rw [List.cons_append, takeBody, if_neg ?cnd, ih htail]
      case cnd =>
        rintro ⟨rfl, hh | hh⟩
        · cases cs with
          | nil => simp at hh
          | cons d ds => exact hc ⟨rfl, by simpa using hh⟩
        · exact absurd hh (by simp)

theorem takeBody_append_final {b : List Char} (h : noNlHash b = true) :
    takeBody (b ++ ['\n']) = (b, ['\n']) := by
  induction b with
  | nil =>
      rw [List.nil_append, takeBody, if_pos (by simp)]
  | cons c cs ih =>
      obtain ⟨hc, htail⟩ := noNlHash_cons h
      rw [List.cons_append, takeBody, if_neg ?cnd, ih htail]
      case cnd =>
        rintro ⟨rfl, hh | hh⟩
        · cases cs with
          | nil => simp at hh
          | cons d ds => exact hc ⟨rfl, by simpa using hh⟩
        · exact absurd hh (by simp)

theorem pyStrip_of_goodBody {b : List Char} (h : goodBody b = true) :
    pyStrip b = b := by
  rw [goodBody, Bool.and_eq_true, Bool.and_eq_true] at h
  obtain ⟨⟨h1, h2⟩, -⟩ := h
  rw [pyStrip]
  have e1 : b.dropWhile pySpace = b := by
    cases b with
    | nil => rfl
    | cons c cs =>
        rw [headNotSpace] at h1
        rw [List.dropWhile_cons, if_neg (by simpa using h1)]
  rw [e1]
  have e2 : b.reverse.dropWhile pySpace = b.reverse := by
    cases hb : b.reverse with
    | nil => rfl
    | cons c cs =>
        rw [hb] at h2
        rw [headNotSpace] at h2
        rw [List.dropWhile_cons, if_neg (by simpa using h2)]
  rw [e2, List.reverse_reverse]

/-! ### The scan on well-formed reports -/

theorem sectionNames_headNotSpace : ∀ h ∈ sectionNames, headNotSpace h.data = true := by
  decide

theorem isPrefixOf_append_self : ∀ (a z : List Char), a.isPrefixOf (a ++ z) = true := by
  intro a z
  induction a with
  | nil => simp
  | cons c cs ih => simp [List.isPrefixOf, ih]

theorem drop_length_append : ∀ (a z : List Char), (a ++ z).drop a.length = z := by
  intro a z
  induction a with
  | nil => rfl
  | cons c cs ih => simp [ih]

/-- When neither of two words is a prefix of the other, the first is not a
prefix of the second however the second is extended. -/
theorem isPrefixOf_append_of_ne : ∀ (a b : List Char),
    a.isPrefixOf b = false → b.isPrefixOf a = false →
    ∀ z : List Char, a.isPrefixOf (b ++ z) = false := by
  intro a
  induction a with
  | nil => intro b hab _ _; simp at hab
  | cons x xs ih =>
      intro b hab hba z
      cases b with
      | nil => simp at hba
      | cons y ys =>
          by_cases hxy : x = y
          · subst hxy
            simp only [List.isPrefixOf, beq_self_eq_true, Bool.true_and] at hab hba
            rw [List.cons_append]
            simp only [List.isPrefixOf, beq_self_eq_true, Bool.true_and]
            exact ih ys hab hba z
          · rw [List.cons_append]
            simp only [List.isPrefixOf]
            have hbeq : (x == y) = false := beq_eq_false_iff_ne.mpr hxy
            simp [hbeq]

theorem matchHeaderIn_skip (n : String) (ns : List String) (l : List Char)
    (hn : n.data.isPrefixOf l = false) :
    matchHeaderIn (n :: ns) l = matchHeaderIn ns l := by
  rw [matchHeaderIn, if_neg (by simp [hn])]

theorem matchHeaderIn_hit (n : String) (ns : List String) (z : List Char) :
    matchHeaderIn (n :: ns) (n.data ++ z) = some (n, z) := by
  rw [matchHeaderIn, if_pos (isPrefixOf_append_self _ _), drop_length_append]

/-- At a position where a canonical header literally starts, the alternation
returns that header: the five other alternatives disagree with it on some
character within their common length, whatever follows. -/
theorem matchHeader_self : ∀ h ∈ sectionNames, ∀ z : List Char,
    matchHeader (h.data ++ z) = some (h, z) := by
  intro h hm z
  simp only [sectionNames, List.mem_cons, List.not_mem_nil, or_false] at hm
  rcases hm with rfl | rfl | rfl | rfl | rfl | rfl
  · exact matchHeaderIn_hit "SUMMARY"
      ["KEY DISCUSSION POINTS", "ACTION ITEMS", "SUGGESTED QUESTIONS",
       "RISKS AND MISSING INFO", "MEETING SCRIPT"] z
  · exact (matchHeaderIn_skip "SUMMARY"
        ["KEY DISCUSSION POINTS", "ACTION ITEMS", "SUGGESTED QUESTIONS",
         "RISKS AND MISSING INFO", "MEETING SCRIPT"] _
        (isPrefixOf_append_of_ne "SUMMARY".data "KEY DISCUSSION POINTS".data
          (by decide) (by decide) z)).trans
      (matchHeaderIn_hit "KEY DISCUSSION POINTS"
        ["ACTION ITEMS", "SUGGESTED QUESTIONS", "RISKS AND MISSING INFO",
         "MEETING SCRIPT"] z)
  · exact ((matchHeaderIn_skip "SUMMARY"
        ["KEY DISCUSSION POINTS", "ACTION ITEMS", "SUGGESTED QUESTIONS",
         "RISKS AND MISSING INFO", "MEETING SCRIPT"] _
        (isPrefixOf_append_of_ne "SUMMARY".data "ACTION ITEMS".data
          (by decide) (by decide) z)).trans
      ((matchHeaderIn_skip "KEY DISCUSSION POINTS"
        ["ACTION ITEMS", "SUGGESTED QUESTIONS", "RISKS AND MISSING INFO",
         "MEETING SCRIPT"] _
        (isPrefixOf_append_of_ne "KEY DISCUSSION POINTS".data "ACTION ITEMS".data
          (by decide) (by decide) z)).trans
      (matchHeaderIn_hit "ACTION ITEMS"
        ["SUGGESTED QUESTIONS", "RISKS AND MISSING INFO", "MEETING SCRIPT"] z)))
  · exact ((matchHeaderIn_skip "SUMMARY"
        ["KEY DISCUSSION POINTS", "ACTION ITEMS", "SUGGESTED QUESTIONS",
         "RISKS AND MISSING INFO", "MEETING SCRIPT"] _
        (isPrefixOf_append_of_ne "SUMMARY".data "SUGGESTED QUESTIONS".data
          (by decide) (by decide) z)).trans
      ((matchHeaderIn_skip "KEY DISCUSSION POINTS"
        ["ACTION ITEMS", "SUGGESTED QUESTIONS", "RISKS AND MISSING INFO",
         "MEETING SCRIPT"] _
        (isPrefixOf_append_of_ne "KEY DISCUSSION POINTS".data "SUGGESTED QUESTIONS".data
          (by decide) (by decide) z)).trans
      ((matchHeaderIn_skip "ACTION ITEMS"
        ["SUGGESTED QUESTIONS", "RISKS AND MISSING INFO", "MEETING SCRIPT"] _
        (isPrefixOf_append_of_ne "ACTION ITEMS".data "SUGGESTED QUESTIONS".data
          (by decide) (by decide) z)).trans
      (matchHeaderIn_hit "SUGGESTED QUESTIONS"
        ["RISKS AND MISSING INFO", "MEETING SCRIPT"] z))))
  · exact ((matchHeaderIn_skip "SUMMARY"
        ["KEY DISCUSSION POINTS", "ACTION ITEMS", "SUGGESTED QUESTIONS",
         "RISKS AND MISSING INFO", "MEETING SCRIPT"] _
        (isPrefixOf_append_of_ne "SUMMARY".data "RISKS AND MISSING INFO".data
          (by decide) (by decide) z)).trans
      ((matchHeaderIn_skip "KEY DISCUSSION POINTS"
        ["ACTION ITEMS", "SUGGESTED QUESTIONS", "RISKS AND MISSING INFO",
         "MEETING SCRIPT"] _
        (isPrefixOf_append_of_ne "KEY DISCUSSION POINTS".data "RISKS AND MISSING INFO".data
          (by decide) (by decide) z)).trans
      ((matchHeaderIn_skip "ACTION ITEMS"
        ["SUGGESTED QUESTIONS", "RISKS AND MISSING INFO", "MEETING SCRIPT"] _
        (isPrefixOf_append_of_ne "ACTION ITEMS".data "RISKS AND MISSING INFO".data
          (by decide) (by decide) z)).trans
      ((matchHeaderIn_skip "SUGGESTED QUESTIONS"
        ["RISKS AND MISSING INFO", "MEETING SCRIPT"] _
        (isPrefixOf_append_of_ne "SUGGESTED QUESTIONS".data "RISKS AND MISSING INFO".data
          (by decide) (by decide) z)).trans
      (matchHeaderIn_hit "RISKS AND MISSING INFO" ["MEETING SCRIPT"] z)))))
  · exact ((matchHeaderIn_skip "SUMMARY"
        ["KEY DISCUSSION POINTS", "ACTION ITEMS", "SUGGESTED QUESTIONS",
         "RISKS AND MISSING INFO", "MEETING SCRIPT"] _
        (isPrefixOf_append_of_ne "SUMMARY".data "MEETING SCRIPT".data
          (by decide) (by decide) z)).trans
      ((matchHeaderIn_skip "KEY DISCUSSION POINTS"
        ["ACTION ITEMS", "SUGGESTED QUESTIONS", "RISKS AND MISSING INFO",
         "MEETING SCRIPT"] _
        (isPrefixOf_append_of_ne "KEY DISCUSSION POINTS".data "MEETING SCRIPT".data
          (by decide) (by decide) z)).trans
      ((matchHeaderIn_skip "ACTION ITEMS"
        ["SUGGESTED QUESTIONS", "RISKS AND MISSING INFO", "MEETING SCRIPT"] _
        (isPrefixOf_append_of_ne "ACTION ITEMS".data "MEETING SCRIPT".data
          (by decide) (by decide) z)).trans
      ((matchHeaderIn_skip "SUGGESTED QUESTIONS"
        ["RISKS AND MISSING INFO", "MEETING SCRIPT"] _
        (isPrefixOf_append_of_ne "SUGGESTED QUESTIONS".data "MEETING SCRIPT".data
          (by decide) (by decide) z)).trans
      ((matchHeaderIn_skip "RISKS AND MISSING INFO" ["MEETING SCRIPT"] _
        (isPrefixOf_append_of_ne "RISKS AND MISSING INFO".data "MEETING SCRIPT".data
          (by decide) (by decide) z)).trans
      (matchHeaderIn_hit "MEETING SCRIPT" [] z))))))

theorem renderReport_cons_data (h b : String) (rest : List (String × String)) :
    (renderReport ((h, b) :: rest)).data =
      '#' :: ' ' :: (h.data ++ '\n' :: (b.data ++ '\n' :: (renderReport rest).data)) := by
  simp only [renderReport, renderBlock, String.data_append, List.append_assoc]
  rfl

theorem renderReport_data_head (q : String × String) (rest : List (String × String)) :
    ∃ t, (renderReport (q :: rest)).data = '#' :: t := by
  obtain ⟨h, b⟩ := q
  exact ⟨_, renderReport_cons_data h b rest⟩

/-- The central parsing lemma: on a report written block-by-block from
well-formed (header, body) pairs, the scan recovers exactly those pairs. -/
theorem findMatches_renderReport : ∀ pairs : List (String × String),
    (∀ p ∈ pairs, p.1 ∈ sectionNames ∧ goodBody p.2.data = true) →
    findMatches (renderReport pairs).data = pairs.map (fun p => (p.1, p.2.data)) := by
  intro pairs
  induction pairs with
  | nil => intro _; rfl
  | cons p rest ih =>
      intro hall
      obtain ⟨h, b⟩ := p
      obtain ⟨hmem, hgood⟩ := hall (h, b) (List.mem_cons_self _ _)
      have hrest : ∀ q ∈ rest, q.1 ∈ sectionNames ∧ goodBody q.2.data = true :=
        fun q hq => hall q (List.mem_cons_of_mem _ hq)
      have hb1 : headNotSpace b.data = true := by
        rw [goodBody, Bool.and_eq_true, Bool.and_eq_true] at hgood
        exact hgood.1.1
      have hb3 : noNlHash b.data = true := by
        rw [goodBody, Bool.and_eq_true] at hgood
        exact hgood.2
      have hhd : headNotSpace h.data = true := sectionNames_headNotSpace h hmem
      rw [renderReport_cons_data]
      have hdw1 : (' ' :: (h.data ++ '\n' :: (b.data ++ '\n' :: (renderReport rest).data))).dropWhile pySpace
          = h.data ++ '\n' :: (b.data ++ '\n' :: (renderReport rest).data) := by
        rw [List.dropWhile_cons, if_pos (by decide)]
        exact dropWhile_append_headNotSpace _ hhd
      have hstep : matchHeader ((' ' :: (h.data ++ '\n' :: (b.data ++ '\n' :: (renderReport rest).data))).dropWhile pySpace)
          = some (h, '\n' :: (b.data ++ '\n' :: (renderReport rest).data)) := by
        rw [hdw1]
        exact matchHeader_self h hmem _
      rw [findMatches_hash_some hstep]
      have hdw2 : (('\n' : Char) :: (b.data ++ '\n' :: (renderReport rest).data)).dropWhile pySpace
          = b.data ++ '\n' :: (renderReport rest).data := by
        rw [List.dropWhile_cons, if_pos (by decide)]
        exact dropWhile_append_headNotSpace _ hb1
      rw [hdw2]
      cases rest with
      | nil =>
          rw [show (renderReport []).data = [] from rfl]
          rw [takeBody_append_final hb3]
          rw [show ((b.data, ['\n']) : List Char × List Char).1 = b.data from rfl,
            show ((b.data, ['\n']) : List Char × List Char).2 = ['\n'] from rfl]
          rw [findMatches_cons_ne [] (by decide), findMatches_nil]
          rfl
      | cons q rest' =>
          obtain ⟨t, ht⟩ := renderReport_data_head q rest'
          rw [ht, takeBody_append_hash t hb3]
          rw [show ((b.data, '\n' :: '#' :: t) : List Char × List Char).1 = b.data from rfl,
            show ((b.data, '\n' :: '#' :: t) : List Char × List Char).2 = '\n' :: '#' :: t from rfl]
          rw [findMatches_cons_ne _ (by decide), ← ht, ih hrest]
          rfl

/-! ### The dictionary of sections -/

theorem dictSet_keys {d : List (String × String)} {k : String} (v : String)
    (hk : k ∈ d.map Prod.fst) :
    (dictSet d k v).map Prod.fst = d.map Prod.fst := by
  induction d with
  | nil => cases hk
  | cons p rest ih =>
      obtain ⟨k', v'⟩ := p
      rw [dictSet]
      split
      · rfl
      · rename_i hne
        have hk' : k ∈ rest.map Prod.fst := by
          rcases List.mem_cons.mp hk with h | h
          · exact absurd h.symm hne
          · exact h
        simpa using ih hk'

theorem lookup_cons (h k v : String) (rest : List (String × String)) :
    List.lookup h ((k, v) :: rest) = if h = k then some v else List.lookup h rest := by
  rw [List.lookup]
  by_cases hk : h = k
  · rw [if_pos hk]
    have : (h == k) = true := beq_iff_eq.mpr hk
    rw [this]
  · rw [if_neg hk]
    have : (h == k) = false := beq_eq_false_iff_ne.mpr hk
    rw [this]

theorem lookup_dictSet_self (d : List (String × String)) (k : String) (v : String) :
    List.lookup k (dictSet d k v) = some v := by
  induction d with
  | nil =>
      rw [dictSet, lookup_cons, if_pos rfl]
  | cons p rest ih =>
      obtain ⟨k', v'⟩ := p
      rw [dictSet]
      split
      · rename_i he
        rw [lookup_cons, if_pos he.symm]
      · rename_i hne
        rw [lookup_cons, if_neg (fun hh => hne hh.symm)]
        exact ih

theorem lookup_dictSet_ne (d : List (String × String)) {k h : String} (v : String)
    (hne : ¬ k = h) :
    List.lookup h (dictSet d k v) = List.lookup h d := by
  induction d with
  | nil =>
      rw [dictSet, lookup_cons, if_neg (fun hh => hne hh.symm)]
  | cons p rest ih =>
      obtain ⟨k', v'⟩ := p
      rw [dictSet]
      split
      · rename_i he
        subst he
        rw [lookup_cons, lookup_cons, if_neg (fun hh => hne (hh.symm)),
          if_neg (fun hh => hne (hh.symm))]
      · rw [lookup_cons, lookup_cons]
        by_cases hk : h = k'
        · rw [if_pos hk, if_pos hk]
        · rw [if_neg hk, if_neg hk]
          exact ih

theorem applyMatches_nil (d : List (String × String)) : applyMatches d [] = d := rfl

theorem applyMatches_cons (d : List (String × String)) (p : String × String)
    (ms : List (String × String)) :
    applyMatches d (p :: ms) = applyMatches (dictSet d p.1 p.2) ms := rfl

theorem lastVal_cons_of_ne_nil {α β : Type} (p : α × β) {l : List (α × β)}
    (h : ¬ l = []) : lastVal (p :: l) = lastVal l := by
  cases l with
  | nil => exact absurd rfl h
  | cons q rest => rw [lastVal]

/-- If no match mentions the key, the fold leaves its value unchanged. -/
theorem lookup_applyMatches_of_filter_nil :
    ∀ (ms d : List (String × String)) (h : String),
    ms.filter (fun p => p.1 == h) = [] →
    List.lookup h (applyMatches d ms) = List.lookup h d := by
  intro ms
  induction ms with
  | nil => intro d h _; rfl
  | cons p tl ih =>
      intro d h hf
      rw [List.filter_cons] at hf
      split at hf
      · cases hf
      · rename_i hph
        have hne : ¬ p.1 = h := by simpa using hph
        rw [applyMatches_cons, ih _ h hf, lookup_dictSet_ne _ _ hne]

/-- The fold realises last-occurrence-wins: the final value of a key is the
value of the last match mentioning it. -/
theorem lookup_applyMatches_of_lastVal :
    ∀ (ms d : List (String × String)) (h : String) (v : String),
    lastVal (ms.filter (fun p => p.1 == h)) = some v →
    List.lookup h (applyMatches d ms) = some v := by
  intro ms
  induction ms with
  | nil => intro d h v hl; cases hl
  | cons p tl ih =>
      intro d h v hl
      rw [List.filter_cons] at hl
      rw [applyMatches_cons]
      split at hl
      · rename_i hph
        have hp1 : p.1 = h := by simpa using hph
        cases hftl : tl.filter (fun q => q.1 == h) with
        | nil =>
            rw [hftl, lastVal] at hl
            cases hl
            rw [lookup_applyMatches_of_filter_nil tl _ h hftl, hp1,
              lookup_dictSet_self]
        | cons q rest =>
            rw [hftl] at hl
            rw [lastVal_cons_of_ne_nil _ (by simp)] at hl
            rw [← hftl] at hl
            exact ih _ h v hl
      · exact ih _ h v hl

/-! ### Invariants of the scan -/

theorem takeBody_fst_head : ∀ l : List Char,
    (takeBody l).1 = [] ∨ (takeBody l).1.head? = l.head? := by
  intro l
  cases l with
  | nil => exact Or.inl rfl
  | cons c rest =>
      rw [takeBody]
      split
      · exact Or.inl rfl
      · exact Or.inr rfl

theorem takeBody_fst_noNlHash : ∀ l : List Char, noNlHash (takeBody l).1 = true := by
  intro l
  induction l with
  | nil => rfl
  | cons c rest ih =>
      rw [takeBody]
      split
      · rfl
      · rename_i hcond
        rw [noNlHash, if_neg ?cnd]
        · exact ih
        case cnd =>
          rintro ⟨rfl, hh⟩
          rcases takeBody_fst_head rest with he | he
          · rw [he] at hh
            cases hh
          · rw [he] at hh
            exact hcond ⟨rfl, Or.inl hh⟩

theorem findAux_key_mem : ∀ (fuel : Nat) (l : List Char) (p : String × List Char),
    p ∈ findAux fuel l → p.1 ∈ sectionNames := by
  intro fuel
  induction fuel with
  | zero => intro l p hp; cases hp
  | succ f ih =>
      intro l p hp
      cases l with
      | nil => cases hp
      | cons c rest =>
          rw [findAux] at hp
          split at hp
          · cases hmh : matchHeader (rest.dropWhile pySpace) with
            | none =>
                rw [hmh, Option.elim_none] at hp
                exact ih rest p hp
            | some pr =>
                rw [hmh, Option.elim_some] at hp
                obtain ⟨h, afterH⟩ := pr
                rcases List.mem_cons.mp hp with he | htl
                · rw [he]
                  exact (matchHeader_inv hmh).1
                · exact ih _ p htl
          · exact ih rest p hp

theorem findAux_body_noNlHash : ∀ (fuel : Nat) (l : List Char) (p : String × List Char),
    p ∈ findAux fuel l → noNlHash p.2 = true := by
  intro fuel
  induction fuel with
  | zero => intro l p hp; cases hp
  | succ f ih =>
      intro l p hp
      cases l with
      | nil => cases hp
      | cons c rest =>
          rw [findAux] at hp
          split at hp
          · cases hmh : matchHeader (rest.dropWhile pySpace) with
            | none =>
                rw [hmh, Option.elim_none] at hp
                exact ih rest p hp
            | some pr =>
                rw [hmh, Option.elim_some] at hp
                rcases List.mem_cons.mp hp with he | htl
                · rw [he]
                  exact takeBody_fst_noNlHash _
                · exact ih _ p htl
          · exact ih rest p hp

theorem findMatches_key_mem {l : List Char} {p : String × List Char}
    (hp : p ∈ findMatches l) : p.1 ∈ sectionNames :=
  findAux_key_mem l.length l p hp

theorem findMatches_body_noNlHash {l : List Char} {p : String × List Char}
    (hp : p ∈ findMatches l) : noNlHash p.2 = true :=
  findAux_body_noNlHash l.length l p hp

/-! ### Structure of the fold over matches -/

theorem applyMatches_keys : ∀ (ms d : List (String × String)),
    (∀ p ∈ ms, p.1 ∈ d.map Prod.fst) →
    (applyMatches d ms).map Prod.fst = d.map Prod.fst := by
  intro ms
  induction ms with
  | nil => intro d _; rfl
  | cons p tl ih =>
      intro d hall
      rw [applyMatches_cons]
      have hk : p.1 ∈ d.map Prod.fst := hall p (List.mem_cons_self _ _)
      have hkeys : (dictSet d p.1 p.2).map Prod.fst = d.map Prod.fst :=
        dictSet_keys p.2 hk
      rw [ih (dictSet d p.1 p.2) (fun q hq => by
        rw [hkeys]; exact hall q (List.mem_cons_of_mem _ hq)), hkeys]

theorem dictSet_value_pred (P : String → Prop) :
    ∀ (d : List (String × String)) (k v : String),
    (∀ p ∈ d, P p.2) → P v → ∀ q ∈ dictSet d k v, P q.2 := by
  intro d
  induction d with
  | nil =>
      intro k v _ hv q hq
      rw [dictSet] at hq
      rcases List.mem_singleton.mp hq with rfl
      exact hv
  | cons p rest ih =>
      intro k v hall hv q hq
      obtain ⟨k', v'⟩ := p
      rw [dictSet] at hq
      split at hq
      · rcases List.mem_cons.mp hq with rfl | htl
        · exact hv
        · exact hall _ (List.mem_cons_of_mem _ htl)
      · rcases List.mem_cons.mp hq with rfl | htl
        · exact hall _ (List.mem_cons_self _ _)
        · exact ih k v (fun r hr => hall r (List.mem_cons_of_mem _ hr)) hv q htl

theorem applyMatches_value_pred (P : String → Prop) :
    ∀ (ms d : List (String × String)),
    (∀ p ∈ d, P p.2) → (∀ p ∈ ms, P p.2) →
    ∀ q ∈ applyMatches d ms, P q.2 := by
  intro ms
  induction ms with
  | nil => intro d hd _ q hq; exact hd q hq
  | cons p tl ih =>
      intro d hd hms q hq
      rw [applyMatches_cons] at hq
      exact ih (dictSet d p.1 p.2)
        (dictSet_value_pred P d p.1 p.2 hd (hms p (List.mem_cons_self _ _)))
        (fun r hr => hms r (List.mem_cons_of_mem _ hr)) q hq

theorem applyMatches_untouched (k v : String) :
    ∀ (qs d : List (String × String)),
    k ∉ qs.map Prod.fst →
    applyMatches ((k, v) :: d) qs = (k, v) :: applyMatches d qs := by
  intro qs
  induction qs with
  | nil => intro d _; rfl
  | cons q tl ih =>
      intro d hk
      rw [applyMatches_cons, applyMatches_cons, dictSet,
        if_neg (fun he => hk (by rw [he]; exact List.mem_cons_self _ _))]
      exact ih _ (fun hmem => hk (List.mem_cons_of_mem _ hmem))

/-- Folding a list of updates whose keys are exactly the keys of the
dictionary, in the same order and without repetition, replaces the
dictionary outright. -/
theorem applyMatches_same_keys :
    ∀ (qs ps : List (String × String)),
    ps.map Prod.fst = qs.map Prod.fst → (qs.map Prod.fst).Nodup →
    applyMatches ps qs = qs := by
  intro qs
  induction qs with
  | nil =>
      intro ps hk _
      have : ps = [] := List.map_eq_nil_iff.mp hk
      rw [this]
      rfl
  | cons q tl ih =>
      intro ps hk hnd
      cases ps with
      | nil => cases hk
      | cons p ptl =>
          obtain ⟨p1, p2⟩ := p
          obtain ⟨q1, q2⟩ := q
          simp only [List.map_cons, List.cons.injEq] at hk
          obtain ⟨hk1, hk2⟩ := hk
          subst hk1
          rw [applyMatches_cons]
          simp only [List.map_cons, List.nodup_cons] at hnd
          rw [dictSet, if_pos rfl,
            applyMatches_untouched p1 q2 tl ptl hnd.1, ih ptl hk2 hnd.2]

theorem filter_eq_single_of_nodup :
    ∀ (ms : List (String × String)) (p : String × String),
    (ms.map Prod.fst).Nodup → p ∈ ms →
    ms.filter (fun q => q.1 == p.1) = [p] := by
  intro ms
  induction ms with
  | nil => intro p _ hp; cases hp
  | cons m tl ih =>
      intro p hnd hp
      simp only [List.map_cons, List.nodup_cons] at hnd
      rw [List.filter_cons]
      rcases List.mem_cons.mp hp with rfl | htl
      · rw [if_pos (by simp)]
        have : tl.filter (fun q => q.1 == p.1) = [] := by
          rw [List.filter_eq_nil_iff]
          intro a ha hq
          exact hnd.1 (by
            have : a.1 = p.1 := by simpa using hq
            rw [← this]
            exact List.mem_map_of_mem Prod.fst ha)
        rw [this]
      · have hne : ¬ m.1 = p.1 := by
          intro he
          exact hnd.1 (by
            rw [he]
            exact List.mem_map_of_mem Prod.fst htl)
        rw [if_neg (by simpa using hne)]
        exact ih p hnd.2 htl

theorem lastVal_isSome {α β : Type} (l : List (α × β)) (h : ¬ l = []) :
    ∃ v, lastVal l = some v := by
  induction l with
  | nil => exact absurd rfl h
  | cons p tl ih =>
      cases tl with
      | nil => exact ⟨p.2, rfl⟩
      | cons q rest =>
          obtain ⟨v, hv⟩ := ih (by simp)
          exact ⟨v, by rw [lastVal_cons_of_ne_nil p (by simp)]; exact hv⟩

/-! ### The claims -/

/-- Claim C1: for every input string, `parse_final_output` returns a mapping
whose keys are exactly the six fixed header names (the parser is a total
function of the embedding, so it never raises), and on the empty string every
one of the six keys is mapped to the empty string. -/
theorem C1_parse_total_six_keys :
    (∀ s : String, (parse_final_output s).map Prod.fst = sectionNames) ∧
    parse_final_output "" = sectionNames.map (fun h => (h, "")) := by
  constructor
  · intro s
    rw [parse_final_output]
    have hkeys : ∀ p ∈ trimmedMatches s, p.1 ∈ initSections.map Prod.fst := by
      intro p hp
      rw [trimmedMatches] at hp
      obtain ⟨q, hq, rfl⟩ := List.mem_map.mp hp
      have : q.1 ∈ sectionNames := findMatches_key_mem hq
      exact this
    rw [applyMatches_keys _ _ hkeys]
    rfl
  · rfl

/-- Claim C3: whenever a canonical header is matched more than once in the
left-to-right scan, the parsed value of that header is the trimmed body of
the last such match. -/
theorem C3_duplicate_last_wins (s : String) (h : String)
    (_hcanon : h ∈ sectionNames) (hdup : 2 ≤ (matchesFor s h).length) :
    List.lookup h (parse_final_output s) = lastVal (matchesFor s h) := by
  have hne : ¬ matchesFor s h = [] := by
    intro he
    rw [he] at hdup
    simp at hdup
  obtain ⟨v, hv⟩ := lastVal_isSome (matchesFor s h) hne
  rw [hv, parse_final_output]
  exact lookup_applyMatches_of_lastVal (trimmedMatches s) initSections h v hv

theorem C3_witness :
    List.lookup "SUMMARY"
      (parse_final_output "# SUMMARY\nfirst\n# SUMMARY\nsecond") = some "second" := by
  rw [C3_duplicate_last_wins "# SUMMARY\nfirst\n# SUMMARY\nsecond" "SUMMARY"
    (by decide) (by decide)]
  decide

/-- Claim C6: the text embedded in the first generation step of
`run_meeting_prep_crew` is the combined text truncated to at most 100000
characters: exactly the first 100000 characters when the input is longer,
the input unchanged otherwise. -/
theorem C6_first_step_truncated (full_text : String) :
    (crewTasks full_text).head? = some ⟨"Document Summarizer",
        "Summarize:\n" ++ pySliceUpTo full_text 100000, "2–3 paragraphs."⟩ ∧
    (pySliceUpTo full_text 100000).data = full_text.data.take 100000 ∧
    (pySliceUpTo full_text 100000).length ≤ 100000 ∧
    (full_text.length ≤ 100000 → pySliceUpTo full_text 100000 = full_text) := by
  refine ⟨rfl, rfl, ?_, ?_⟩
  · show (full_text.data.take 100000).length ≤ 100000
    rw [List.length_take]
    exact min_le_left _ _
  · intro hle
    show String.mk (full_text.data.take 100000) = full_text
    rw [List.take_of_length_le hle]

theorem C6_witness : pySliceUpTo "abc" 100000 = "abc" :=
  (C6_first_step_truncated "abc").2.2.2 (by decide)

/-- Claim C7: when the credential is absent from the environment, the
orchestrator returns the configuration-error sentinel at once and the
generation capability is never invoked (the invocation log is empty),
whatever the capability and the input text. -/
theorem C7_missing_credential (getenv : String → Option String)
    (gen : CrewTask → Except String String) (full_text : String)
    (habsent : getenv "GEMINI_API_KEY" = none) :
    run_meeting_prep_crew getenv gen full_text = (Except.ok configErrorMessage, []) := by
  rw [run_meeting_prep_crew, if_pos (by rw [habsent]; rfl)]

theorem C7_witness :
    run_meeting_prep_crew (fun _ => none) genFailQuota "doc" =
      (Except.ok configErrorMessage, []) :=
  C7_missing_credential (fun _ => none) genFailQuota "doc" rfl

/-- Claim C8: the corpus built from two plain-text files is their contents
in upload order, one trailing newline appended per file; in particular the
files "A" and "B" yield "A\nB\n". -/
theorem C8_corpus_two_files :
    (∀ a b : String,
      buildCorpus [UploadedFile.txt a, UploadedFile.txt b] = a ++ "\n" ++ b ++ "\n") ∧
    buildCorpus [UploadedFile.txt "A", UploadedFile.txt "B"] = "A\nB\n" := by
  constructor
  · intro a b
    show ("" ++ a ++ "\n") ++ b ++ "\n" = a ++ "\n" ++ b ++ "\n"
    apply String.ext
    simp [String.data_append]
  · rfl

theorem trimmedMatches_renderReport (pairs : List (String × String))
    (hall : ∀ p ∈ pairs, p.1 ∈ sectionNames ∧ goodBody p.2.data = true) :
    trimmedMatches (renderReport pairs) = pairs := by
  rw [trimmedMatches, findMatches_renderReport pairs hall, List.map_map]
  have hcongr : ∀ p ∈ pairs,
      ((fun q : String × List Char => (q.1, String.mk (pyStrip q.2))) ∘
        (fun q : String × String => (q.1, q.2.data))) p = id p := by
    intro p hp
    obtain ⟨a, b⟩ := p
    show (a, String.mk (pyStrip b.data)) = (a, b)
    rw [pyStrip_of_goodBody (hall (a, b) hp).2]
  rw [List.map_congr_left hcongr, List.map_id]

set_option maxRecDepth 4000 in
/-- Claim C2 counterexample: six bodies none of which contains a line
starting with the marker character followed by a canonical header name (the
hypothesis of the round-trip law as stated), whose round trip nevertheless
fails: the line "#b" inside the SUMMARY body terminates it, and the parsed
SUMMARY comes back as "a". -/
theorem C2_counterexample :
    ([("SUMMARY", "a\n#b"), ("KEY DISCUSSION POINTS", "x"), ("ACTION ITEMS", "x"),
      ("SUGGESTED QUESTIONS", "x"), ("RISKS AND MISSING INFO", "x"),
      ("MEETING SCRIPT", "x")].all (fun p => !(hasMarkedHeaderLine p.2))) = true ∧
    ¬ parse_final_output (renderReport (sectionNames.zip
        ["a\n#b", "x", "x", "x", "x", "x"])) =
      sectionNames.zip ["a\n#b", "x", "x", "x", "x", "x"] ∧
    List.lookup "SUMMARY" (parse_final_output (renderReport (sectionNames.zip
        ["a\n#b", "x", "x", "x", "x", "x"]))) = some "a" := by
  refine ⟨by decide, by decide, by decide⟩

/-- Claim C2 (amended): the round trip holds under the stronger hypothesis
forced by the counterexample: each body is nonempty, equal to its own trim,
and contains no line at all beginning with the marker character (not merely
no marker-plus-canonical-header line). -/
theorem C2_roundtrip_amended (bodies : List String)
    (hlen : bodies.length = 6)
    (hgood : ∀ b ∈ bodies, goodBody b.data = true) :
    parse_final_output (renderReport (sectionNames.zip bodies)) =
      sectionNames.zip bodies := by
  have hall : ∀ p ∈ sectionNames.zip bodies,
      p.1 ∈ sectionNames ∧ goodBody p.2.data = true := by
    intro p hp
    obtain ⟨a, b⟩ := p
    obtain ⟨h1, h2⟩ := List.of_mem_zip hp
    exact ⟨h1, hgood b h2⟩
  have hkeys : (sectionNames.zip bodies).map Prod.fst = sectionNames :=
    List.map_fst_zip _ _ (by rw [hlen]; decide)
  rw [parse_final_output, trimmedMatches_renderReport _ hall]
  exact applyMatches_same_keys _ _ (by rw [hkeys]; rfl) (by rw [hkeys]; decide)

theorem C2_witness :
    parse_final_output (renderReport
      (sectionNames.zip ["a", "b", "c", "d", "e", "f"])) =
      sectionNames.zip ["a", "b", "c", "d", "e", "f"] :=
  C2_roundtrip_amended ["a", "b", "c", "d", "e", "f"] rfl (by decide)

set_option maxRecDepth 4000 in
/-- Claim C4 counterexample: a raw output holding the six canonical headers
each exactly once, in non-canonical order (ACTION ITEMS first), where the
body "b" that follows the SUMMARY header is not attributed to SUMMARY:
because the ACTION ITEMS body is empty, the whitespace after its header
swallows the newline and the entire SUMMARY block is absorbed into the
ACTION ITEMS body. -/
theorem C4_counterexample :
    (∀ h ∈ sectionNames,
      countSubstr ("# ACTION ITEMS\n\n# SUMMARY\nb\n# KEY DISCUSSION POINTS\nc\n# SUGGESTED QUESTIONS\nd\n# RISKS AND MISSING INFO\ne\n# MEETING SCRIPT\nf\n").data h.data = 1) ∧
    List.lookup "SUMMARY" (parse_final_output
      "# ACTION ITEMS\n\n# SUMMARY\nb\n# KEY DISCUSSION POINTS\nc\n# SUGGESTED QUESTIONS\nd\n# RISKS AND MISSING INFO\ne\n# MEETING SCRIPT\nf\n") = some "" ∧
    List.lookup "ACTION ITEMS" (parse_final_output
      "# ACTION ITEMS\n\n# SUMMARY\nb\n# KEY DISCUSSION POINTS\nc\n# SUGGESTED QUESTIONS\nd\n# RISKS AND MISSING INFO\ne\n# MEETING SCRIPT\nf\n") = some "# SUMMARY\nb" := by
  refine ⟨by decide, by decide, by decide⟩

/-- Claim C4 (amended): when every body is nonempty, trimmed and free of
marker-leading lines, the parser attributes each body to its own header
whatever the order of the six one-per-header blocks. -/
theorem C4_any_order_amended (pairs : List (String × String))
    (hperm : List.Perm (pairs.map Prod.fst) sectionNames)
    (hgood : ∀ p ∈ pairs, goodBody p.2.data = true)
    (p : String × String) (hp : p ∈ pairs) :
    List.lookup p.1 (parse_final_output (renderReport pairs)) = some p.2 := by
  have hall : ∀ q ∈ pairs, q.1 ∈ sectionNames ∧ goodBody q.2.data = true :=
    fun q hq =>
      ⟨hperm.mem_iff.mp (List.mem_map_of_mem Prod.fst hq), hgood q hq⟩
  rw [parse_final_output, trimmedMatches_renderReport _ hall]
  have hnd : (pairs.map Prod.fst).Nodup := hperm.nodup_iff.mpr (by decide)
  apply lookup_applyMatches_of_lastVal
  rw [filter_eq_single_of_nodup pairs p hnd hp]
  rfl

theorem C4_witness :
    List.lookup "SUMMARY" (parse_final_output (renderReport
      [("ACTION ITEMS", "c"), ("SUMMARY", "a"), ("KEY DISCUSSION POINTS", "b"),
       ("SUGGESTED QUESTIONS", "d"), ("RISKS AND MISSING INFO", "e"),
       ("MEETING SCRIPT", "f")])) = some "a" :=
  C4_any_order_amended
    [("ACTION ITEMS", "c"), ("SUMMARY", "a"), ("KEY DISCUSSION POINTS", "b"),
     ("SUGGESTED QUESTIONS", "d"), ("RISKS AND MISSING INFO", "e"),
     ("MEETING SCRIPT", "f")]
    (by decide) (by decide) ("SUMMARY", "a") (by decide)

/-- Claim C5 counterexample: an input whose only marker character sits in
the middle of its first line; no line of the input begins with the marker,
yet the parser starts a SUMMARY section there and returns "hello". -/
theorem C5_counterexample :
    (linesOf ("Intro text # SUMMARY\nhello").data).all
        (fun ln => !(ln.head? == some '#')) = true ∧
    List.lookup "SUMMARY" (parse_final_output "Intro text # SUMMARY\nhello") =
      some "hello" := ⟨by decide, by decide⟩

theorem findMatches_append_no_hash : ∀ (a l : List Char),
    (∀ c ∈ a, ¬ c = '#') → findMatches (a ++ l) = findMatches l := by
  intro a
  induction a with
  | nil => intro l _; rfl
  | cons c cs ih =>
      intro l ha
      rw [List.cons_append, findMatches_cons_ne _ (ha c (List.mem_cons_self _ _)),
        ih l (fun d hd => ha d (List.mem_cons_of_mem _ hd))]

/-- Claim C5 (amended): the parser recognises the marker character at any
position, not only at line starts — a prefix containing no marker character
is simply ignored, so a header occurring mid-line does start a section.
Only the end of a body is tied to a line-leading marker. -/
theorem C5_marker_anywhere_amended (pre rest : String)
    (hpre : ∀ c ∈ pre.data, ¬ c = '#') :
    parse_final_output (pre ++ rest) = parse_final_output rest := by
  rw [parse_final_output, parse_final_output, trimmedMatches, trimmedMatches,
    String.data_append, findMatches_append_no_hash pre.data rest.data hpre]

theorem C5_witness :
    parse_final_output ("Intro text " ++ "# SUMMARY\nhello") =
      parse_final_output "# SUMMARY\nhello" :=
  C5_marker_anywhere_amended "Intro text " "# SUMMARY\nhello" (by decide)

/-- Claim C9 counterexample: with the credential present and a generation
capability failing at the first step with cause "quota exceeded", the run
surfaces exactly the raw underlying exception — the surfaced value carries
no step name (no agent role occurs in it), contradicting the claim that a
GenerationError identifying the step is surfaced instead of the raw
exception. -/
theorem C9_counterexample :
    (run_meeting_prep_crew envWithKey genFailQuota "doc").1 =
      Except.error "quota exceeded" ∧
    ((crewTasks "doc").map CrewTask.role).all
      (fun r => countSubstr "quota exceeded".data r.data == 0) = true :=
  ⟨rfl, by decide⟩

theorem kickoffSeq_append_fail (gen : CrewTask → Except String String) :
    ∀ (pre : List CrewTask) (t : CrewTask) (post : List CrewTask)
      (c : String) (acc : String),
    (∀ t2 ∈ pre, ∃ o, gen t2 = Except.ok o) → gen t = Except.error c →
    kickoffSeq gen (pre ++ t :: post) acc = Except.error c := by
  intro pre
  induction pre with
  | nil =>
      intro t post c acc _ hfail
      rw [List.nil_append, kickoffSeq, hfail]
  | cons p pre2 ih =>
      intro t post c acc hpre hfail
      obtain ⟨o, ho⟩ := hpre p (List.mem_cons_self _ _)
      rw [List.cons_append, kickoffSeq, ho]
      exact ih t post c o (fun q hq => hpre q (List.mem_cons_of_mem _ hq)) hfail

theorem invokedTasks_append_fail (gen : CrewTask → Except String String) :
    ∀ (pre : List CrewTask) (t : CrewTask) (post : List CrewTask) (c : String),
    (∀ t2 ∈ pre, ∃ o, gen t2 = Except.ok o) → gen t = Except.error c →
    invokedTasks gen (pre ++ t :: post) = pre.map CrewTask.role ++ [t.role] := by
  intro pre
  induction pre with
  | nil =>
      intro t post c _ hfail
      rw [List.nil_append, invokedTasks, hfail]
      rfl
  | cons p pre2 ih =>
      intro t post c hpre hfail
      obtain ⟨o, ho⟩ := hpre p (List.mem_cons_self _ _)
      rw [List.cons_append, invokedTasks, ho,
        ih t post c (fun q hq => hpre q (List.mem_cons_of_mem _ hq)) hfail]
      rfl

/-- Claim C9 (amended): when the generation capability fails at any of the
six steps (all earlier steps succeeding), the run aborts — the steps after
the failing one are never invoked — and the underlying cause is surfaced
unchanged, as the raw propagating exception, with no GenerationError wrapper
and no step name attached. -/
theorem C9_failure_propagates_raw (getenv : String → Option String)
    (gen : CrewTask → Except String String) (full_text : String)
    (pre : List CrewTask) (t : CrewTask) (post : List CrewTask) (c : String)
    (hkey : ¬ pyTruthyOpt (getenv "GEMINI_API_KEY") = false)
    (hsplit : crewTasks full_text = pre ++ t :: post)
    (hpre : ∀ t2 ∈ pre, ∃ o, gen t2 = Except.ok o)
    (hfail : gen t = Except.error c) :
    run_meeting_prep_crew getenv gen full_text =
      (Except.error c, pre.map CrewTask.role ++ [t.role]) := by
  rw [run_meeting_prep_crew, if_neg hkey, hsplit,
    kickoffSeq_append_fail gen pre t post c "" hpre hfail,
    invokedTasks_append_fail gen pre t post c hpre hfail]

theorem C9_witness :
    run_meeting_prep_crew envWithKey genFailQuota "doc" =
      (Except.error "quota exceeded", ["Document Summarizer"]) :=
  C9_failure_propagates_raw envWithKey genFailQuota "doc" []
    ⟨"Document Summarizer", "Summarize:\ndoc", "2–3 paragraphs."⟩
    ((crewTasks "doc").tail) "quota exceeded" (by decide) rfl
    (fun t2 h => absurd h (List.not_mem_nil t2)) rfl

/-- Claim C10 counterexample: the body returned for SUMMARY on the input
"# SUMMARY\n#foo\nbar" is "#foo\nbar", which contains a line beginning with
the marker character: the marker-led line directly after the header is
absorbed into the body (the whitespace after the header consumes the
newline), so bodies are not free of marker-leading lines. -/
theorem C10_counterexample :
    List.lookup "SUMMARY" (parse_final_output "# SUMMARY\n#foo\nbar") =
      some "#foo\nbar" ∧
    hasHashLine "#foo\nbar" = true := ⟨by decide, by decide⟩

/-- Claim C10 (amended): every value of the returned mapping contains no
newline immediately followed by the marker character — no line after the
first begins with the marker, and any text following such a line-leading
marker is excluded from the body; only the first line of a body can begin
with the marker. -/
theorem C10_bodies_no_marker_line (s : String) (p : String × String)
    (hp : p ∈ parse_final_output s) : noNlHash p.2.data = true := by
  rw [parse_final_output] at hp
  refine applyMatches_value_pred (fun v => noNlHash v.data = true)
    (trimmedMatches s) initSections ?_ ?_ p hp
  · intro q hq
    fin_cases hq <;> rfl
  · intro q hq
    rw [trimmedMatches] at hq
    obtain ⟨r, hr, rfl⟩ := List.mem_map.mp hq
    exact noNlHash_pyStrip (findMatches_body_noNlHash hr)

theorem C10_witness : noNlHash "hi".data = true :=
  C10_bodies_no_marker_line "# SUMMARY\nhi" ("SUMMARY", "hi") (by decide)
